import Mathlib

/-!
Shallow embedding of the `spell` crate (`src/lib.rs`), a statistical spelling
corrector after Norvig, together with proofs about its specification.

Modelling conventions:
* A Rust `String`/`&str` is a `List Char` (one entry per Unicode scalar value);
  Rust's byte-index slicing is modelled faithfully through `utf8Size`,
  `byteLen` and `splitAtByte`, where `none` stands for the byte-boundary
  panic of `&s[a..b]`.
* A fallible (panicking) computation returns an `Option`; `none` is a panic.
* The `HashMap<String, u32>` frequency table is an association list; `u32`
  counts are modelled as `Nat` (no claim under study exercises `u32`
  wrap-around).  Collecting an iterator into a `HashSet` is modelled by
  `List.dedup`; nothing proved here depends on iteration order.
* `f64` probabilities are modelled exactly over `ℚ`: every `u32` converts to
  `f64` exactly, and all the comparisons the claims rely on never meet a NaN.
-/

set_option autoImplicit false

namespace Spell

/-- A Rust string value, one list entry per Unicode scalar. -/
abbrev Str := List Char

/-- Number of bytes of the UTF-8 encoding of `c` (Rust `char::len_utf8`). -/
def utf8Size (c : Char) : Nat :=
  if c.toNat < 128 then 1 else if c.toNat < 2048 then 2
  else if c.toNat < 65536 then 3 else 4

/-- Rust `str::len`: the length of a string in UTF-8 bytes. -/
def byteLen (w : Str) : Nat := (w.map utf8Size).sum

/-- Rust string splitting at byte index `i`: `(&w[..i], &w[i..])`.
`none` models the panic raised when `i` is past the end or not on a
character boundary. -/
def splitAtByte : Str → Nat → Option (Str × Str)
  | w, 0 => some ([], w)
  | [], _ + 1 => none
  | c :: cs, i + 1 =>
    if utf8Size c ≤ i + 1 then
      (splitAtByte cs (i + 1 - utf8Size c)).map (fun q => (c :: q.1, q.2))
    else none

/-- Sequence a list of fallible computations; any panic aborts the whole
computation. -/
def optList {α : Type} : List (Option α) → Option (List α)
  | [] => some []
  | none :: _ => none
  | some a :: os => (optList os).map (fun l => a :: l)

/-- The field `freqmap : HashMap<String, u32>`, as an association list. -/
abbrev FreqMap := List (Str × Nat)

/-- `HashMap` lookup on the association list. -/
def lookupFM : FreqMap → Str → Option Nat
  | [], _ => none
  | (k, v) :: rest, w => if k = w then some v else lookupFM rest w

/-- `freqmap.contains_key(w)`. -/
def containsFM (tbl : FreqMap) (w : Str) : Bool := (lookupFM tbl w).isSome

/-!  The Frequency Model Builder (`with_alphabet`, after the file read).
The regex class `\w` and `str::to_lowercase` live in external crates
(`regex`, `std`), so the builder is parametric in the word-character
predicate `P` and the lowercasing function `low`; every theorem about it
holds for each choice of the two. -/

/-- The successive non-overlapping matches of `\w+` over the text: maximal
runs of characters satisfying `P`, in order. -/
def wordRuns (P : Char → Bool) : Str → List Str
  | [] => []
  | c :: cs =>
    if P c then (c :: cs.takeWhile P) :: wordRuns P (cs.dropWhile P)
    else wordRuns P cs
termination_by l => l.length
decreasing_by
  · exact Nat.lt_succ_of_le (List.dropWhile_sublist P).length_le
  · exact Nat.lt_succ_self _

/-- One pass of the builder loop: `*freqmap.entry(w).or_insert(0) += 1`. -/
def insertIncr : FreqMap → Str → FreqMap
  | [], w => [(w, 1)]
  | (k, v) :: rest, w =>
    if k = w then (k, v + 1) :: rest else (k, v) :: insertIncr rest w

/-- The table produced by `with_alphabet`: one `insertIncr` per lowercased
`\w+` match of the text, in match order, starting from the empty map. -/
def buildFreqmap (P : Char → Bool) (low : Str → Str) (text : Str) : FreqMap :=
  ((wordRuns P text).map low).foldl insertIncr []

/-!  The Corrector. -/

/-- `p`: `f64::from(freqmap[word]) / f64::from(freqmap.values().sum())`,
with the `f64` arithmetic carried out exactly over `ℚ`; `none` models the
panic of the unguarded index when `word` is not a key. -/
def probFM (tbl : FreqMap) (w : Str) : Option ℚ :=
  (lookupFM tbl w).map (fun c => (c : ℚ) / (((tbl.map Prod.snd).sum : Nat) : ℚ))

/-- The comparator of `correction`: `p(a).partial_cmp(&p(b)).unwrap()`.
A `none` is a panic inside `p`; over the values the corrector feeds it
(`u32` counts over a positive total) `partial_cmp` itself never sees a NaN. -/
def cmpP (tbl : FreqMap) (a b : Str) : Option Ordering :=
  (probFM tbl a).bind (fun x => (probFM tbl b).map (fun y =>
    if x < y then Ordering.lt else if x = y then Ordering.eq else Ordering.gt))

/-- One step of `Iterator::max_by`: keep `acc` when it compares `Greater`,
otherwise move to the new element (ties keep the later element). -/
def maxByStep (tbl : FreqMap) (acc : Option Str) (x : Str) : Option Str :=
  acc.bind (fun a => (cmpP tbl a x).map (fun o => if o = Ordering.gt then a else x))

/-- `Iterator::max_by` with the probability comparator.  `none` models both
the `None` of an empty iterator (then unwrapped, a panic) and a panic inside
the comparator.  With a single element the comparator is never invoked. -/
def maxByP (tbl : FreqMap) : List Str → Option Str
  | [] => none
  | x :: xs => xs.foldl (maxByStep tbl) (some x)

/-- `known`: the subset of `words` appearing in `freqmap`, collected into a
`HashSet` (modelled by `dedup`). -/
def known (tbl : FreqMap) (words : List Str) : List Str :=
  (words.filter (containsFM tbl)).dedup

/-- `&w[a..]`. -/
def sliceFrom (w : Str) (a : Nat) : Option Str := (splitAtByte w a).map Prod.snd

/-- `&w[..b]`. -/
def sliceTo (w : Str) (b : Nat) : Option Str := (splitAtByte w b).map Prod.fst

/-- `&w[a..b]` for `a ≤ b` (the only shape `edits1` uses). -/
def slice2 (w : Str) (a b : Nat) : Option Str :=
  (sliceFrom w a).bind (fun r => sliceTo r (b - a))

/-- One `deletes` item: `l.to_string() + &r[1..]`. -/
def delOf (pr : Str × Str) : Option Str :=
  (sliceFrom pr.2 1).map (fun t => pr.1 ++ t)

/-- One `transposes` item: `l + &r[1..2] + &r[0..1] + &r[2..]`. -/
def transOf (pr : Str × Str) : Option Str :=
  (slice2 pr.2 1 2).bind (fun x =>
    (slice2 pr.2 0 1).bind (fun y =>
      (sliceFrom pr.2 2).map (fun z => pr.1 ++ x ++ y ++ z)))

/-- The `replaces` items of one split: `l + c + &r[1..]` for each alphabet
character (the slice is evaluated inside the per-character closure). -/
def repOf (alphabet : Str) (pr : Str × Str) : Option (List Str) :=
  optList (alphabet.map (fun c => (sliceFrom pr.2 1).map (fun t => pr.1 ++ c :: t)))

/-- The `inserts` items of one split: `l + c + r` for each alphabet character. -/
def insOf (alphabet : Str) (pr : Str × Str) : List Str :=
  alphabet.map (fun c => pr.1 ++ c :: pr.2)

/-- `edits1`: split at every byte index `0..=word.len()`, then union the
delete, transpose, replace and insert families into a `HashSet`.
`none` models a byte-boundary panic while slicing. -/
def edits1 (alphabet : Str) (w : Str) : Option (List Str) :=
  (optList ((List.range (byteLen w + 1)).map (splitAtByte w))).bind (fun sp =>
    (optList ((sp.filter (fun pr => !pr.2.isEmpty)).map delOf)).bind (fun dels =>
      (optList ((sp.filter (fun pr => decide (1 < byteLen pr.2))).map transOf)).bind
        (fun trans =>
          (optList ((sp.filter (fun pr => !pr.2.isEmpty)).map (repOf alphabet))).map
            (fun reps =>
              (dels ++ trans ++ reps.flatten ++
                (sp.map (insOf alphabet)).flatten).dedup))))

/-- `edits2`: `edits1` of every member of `edits1(word)`, concatenated and
not deduplicated. -/
def edits2 (alphabet : Str) (w : Str) : Option (List Str) :=
  (edits1 alphabet w).bind (fun e1 =>
    (optList (e1.map (edits1 alphabet))).map List.flatten)

/-- `candidates`: the four-tier waterfall with early returns. -/
def candidates (alphabet : Str) (tbl : FreqMap) (w : Str) : Option (List Str) :=
  if known tbl [w] ≠ [] then some (known tbl [w])
  else
    (edits1 alphabet w).bind (fun e1 =>
      if known tbl e1 ≠ [] then some (known tbl e1)
      else
        (edits2 alphabet w).bind (fun e2 =>
          if known tbl e2 ≠ [] then some (known tbl e2)
          else some [w]))

/-- `correction`: the maximum-probability member of `candidates(word)`.
`none` models a panic anywhere along the way. -/
def correction (alphabet : Str) (tbl : FreqMap) (w : Str) : Option Str :=
  (candidates alphabet tbl w).bind (maxByP tbl)

/-- The default alphabet of `SpellingCorrector::new`. -/
def defaultAlphabet : Str := "abcdefghijklmnopqrstuvwxyz".toList

/-!  Character-level normal form of `edits1` on single-byte (ASCII) words,
used to reason about the sets the claims describe. -/

/-- Every character of `w` occupies a single UTF-8 byte. -/
def OneByte (w : Str) : Prop := ∀ c ∈ w, utf8Size c = 1

instance (w : Str) : Decidable (OneByte w) :=
  List.decidableBAll (fun c => utf8Size c = 1) w

/-- The split list of an all-ASCII word, at character level. -/
def splitsC (w : Str) : List (Str × Str) :=
  (List.range (w.length + 1)).map (fun i => (w.take i, w.drop i))

/-- Swap the two leading characters: the effect of the transpose slices. -/
def swap2 : Str → Str
  | a :: b :: t => b :: a :: t
  | l => l

def deletesC (w : Str) : List Str :=
  ((splitsC w).filter (fun pr => !pr.2.isEmpty)).map (fun pr => pr.1 ++ pr.2.tail)

def transposesC (w : Str) : List Str :=
  ((splitsC w).filter (fun pr => decide (1 < pr.2.length))).map
    (fun pr => pr.1 ++ swap2 pr.2)

def replacesC (alphabet : Str) (w : Str) : List Str :=
  ((splitsC w).filter (fun pr => !pr.2.isEmpty)).flatMap
    (fun pr => alphabet.map (fun c => pr.1 ++ c :: pr.2.tail))

def insertsC (alphabet : Str) (w : Str) : List Str :=
  (splitsC w).flatMap (fun pr => alphabet.map (fun c => pr.1 ++ c :: pr.2))

/-- The value of `edits1` on words whose characters are all single-byte. -/
def edits1C (alphabet : Str) (w : Str) : List Str :=
  (deletesC w ++ transposesC w ++ replacesC alphabet w ++
    insertsC alphabet w).dedup

/-!  Basic lemmas about byte-level splitting. -/

theorem utf8Size_pos (c : Char) : 1 ≤ utf8Size c := by
  unfold utf8Size; split <;> [skip; split] <;> [skip; skip; split] <;> omega

@[simp] theorem byteLen_nil : byteLen [] = 0 := rfl

theorem byteLen_cons (c : Char) (cs : Str) :
    byteLen (c :: cs) = utf8Size c + byteLen cs := by
  simp [byteLen]

theorem byteLen_of_oneByte {w : Str} (h : OneByte w) : byteLen w = w.length := by
  induction w with
  | nil => rfl
  | cons c cs ih =>
    rw [byteLen_cons, h c (by simp), ih (fun d hd => h d (by simp [hd]))]
    simp [Nat.add_comm]

@[simp] theorem splitAtByte_zero (w : Str) : splitAtByte w 0 = some ([], w) := by
  cases w <;> rfl

theorem splitAtByte_eq_some {w l r : Str} {i : Nat}
    (h : splitAtByte w i = some (l, r)) : l ++ r = w ∧ byteLen l = i := by
  induction w generalizing i l r with
  | nil =>
    cases i with
    | zero => simp at h; simp [h.1, h.2]
    | succ j => simp [splitAtByte] at h
  | cons c cs ih =>
    cases i with
    | zero => simp at h; simp [h.1, h.2]
    | succ j =>
      rw [splitAtByte] at h
      split at h
      · rename_i hle
        rw [Option.map_eq_some'] at h
        obtain ⟨q, hq, hql⟩ := h
        obtain ⟨h1, h2⟩ := ih (l := q.1) (r := q.2) (by rw [hq])
        cases hql
        constructor
        · simp [h1]
        · rw [byteLen_cons, h2]; omega
      · exact absurd h (by simp)

theorem splitAtByte_of_oneByte {w : Str} (h : OneByte w) {i : Nat}
    (hi : i ≤ w.length) : splitAtByte w i = some (w.take i, w.drop i) := by
  induction w generalizing i with
  | nil =>
    have : i = 0 := by simpa using hi
    subst this; simp
  | cons c cs ih =>
    cases i with
    | zero => simp
    | succ j =>
      rw [splitAtByte, if_pos (by rw [h c (by simp)]; omega), h c (by simp)]
      rw [ih (fun d hd => h d (by simp [hd])) (by simpa using hi)]
      simp

/-- If every byte index of `w` is a valid split point, all characters of `w`
are single-byte. -/
theorem oneByte_of_all_splits {w : Str}
    (h : ∀ i ≤ byteLen w, (splitAtByte w i).isSome) : OneByte w := by
  induction w with
  | nil => intro c hc; simp at hc
  | cons c cs ih =>
    have hsz : utf8Size c = 1 := by
      have h1 := h 1 (by rw [byteLen_cons]; have := utf8Size_pos c; omega)
      rw [splitAtByte] at h1
      split at h1
      · have := utf8Size_pos c; omega
      · simp at h1
    intro d hd
    rcases List.mem_cons.mp hd with rfl | hmem
    · exact hsz
    · refine ih (fun j hj => ?_) d hmem
      have hj1 := h (j + 1) (by rw [byteLen_cons]; omega)
      rw [splitAtByte, if_pos (by omega), hsz] at hj1
      simpa using hj1

/-!  Lemmas about `optList`. -/

theorem optList_map_some {α β : Type} {l : List α} {f : α → Option β}
    {g : α → β} (h : ∀ a ∈ l, f a = some (g a)) :
    optList (l.map f) = some (l.map g) := by
  induction l with
  | nil => rfl
  | cons a as ih =>
    rw [List.map_cons, List.map_cons, h a (by simp), optList,
      ih (fun b hb => h b (by simp [hb]))]
    rfl

theorem optList_isSome_mem {α : Type} {l : List (Option α)} {r : List α}
    (h : optList l = some r) : ∀ o ∈ l, o.isSome := by
  induction l generalizing r with
  | nil => simp
  | cons o os ih =>
    intro x hx
    cases o with
    | none => rw [optList] at h; exact absurd h (by simp)
    | some a =>
      rw [optList, Option.map_eq_some'] at h
      obtain ⟨l', hl', _⟩ := h
      rcases List.mem_cons.mp hx with rfl | hmem
      · simp
      · exact ih hl' x hmem

/-!  `edits1` on single-byte words computes `edits1C`; on any other word it
panics at the split stage. -/

theorem oneByte_subset {w l : Str} (hw : OneByte w) (hl : l ⊆ w) : OneByte l :=
  fun c hc => hw c (hl hc)

theorem mem_splitsC {w : Str} {pr : Str × Str} (h : pr ∈ splitsC w) :
    ∃ i ≤ w.length, pr = (w.take i, w.drop i) := by
  obtain ⟨i, hi, hpr⟩ := List.mem_map.mp h
  exact ⟨i, Nat.lt_succ_iff.mp (List.mem_range.mp hi), hpr.symm⟩

theorem oneByte_of_mem_splitsC {w : Str} {pr : Str × Str} (hw : OneByte w)
    (h : pr ∈ splitsC w) : OneByte pr.1 ∧ OneByte pr.2 := by
  obtain ⟨i, _, rfl⟩ := mem_splitsC h
  exact ⟨oneByte_subset hw (List.take_subset i w),
    oneByte_subset hw (List.drop_subset i w)⟩

theorem splits_of_oneByte {w : Str} (h : OneByte w) :
    optList ((List.range (byteLen w + 1)).map (splitAtByte w)) =
      some (splitsC w) := by
  rw [byteLen_of_oneByte h, splitsC]
  exact optList_map_some (fun i hi =>
    splitAtByte_of_oneByte h (Nat.lt_succ_iff.mp (List.mem_range.mp hi)))

theorem sliceFrom_of_oneByte {r : Str} (h : OneByte r) {a : Nat}
    (ha : a ≤ r.length) : sliceFrom r a = some (r.drop a) := by
  rw [sliceFrom, splitAtByte_of_oneByte h ha]; rfl

theorem sliceTo_of_oneByte {r : Str} (h : OneByte r) {b : Nat}
    (hb : b ≤ r.length) : sliceTo r b = some (r.take b) := by
  rw [sliceTo, splitAtByte_of_oneByte h hb]; rfl

theorem delOf_of_oneByte {pr : Str × Str} (h : OneByte pr.2) (hne : pr.2 ≠ []) :
    delOf pr = some (pr.1 ++ pr.2.tail) := by
  rw [delOf, sliceFrom_of_oneByte h (by have := List.length_pos.mpr hne; omega),
    List.drop_one]
  rfl

theorem transOf_of_oneByte {pr : Str × Str} (h : OneByte pr.2)
    (hlen : 1 < pr.2.length) : transOf pr = some (pr.1 ++ swap2 pr.2) := by
  obtain ⟨l, r⟩ := pr
  simp only at h hlen ⊢
  match r, hlen with
  | a :: b :: t, _ =>
    have hd : OneByte (b :: t) := oneByte_subset h (by intro x hx; simp [hx])
    rw [transOf, slice2, sliceFrom_of_oneByte h (by simp),
      List.drop_one, List.tail_cons]
    rw [Option.some_bind, sliceTo_of_oneByte hd (by simp)]
    rw [Option.some_bind, slice2, sliceFrom_of_oneByte h (by simp)]
    rw [Option.some_bind, List.drop_zero, sliceTo_of_oneByte h (by simp)]
    rw [Option.some_bind, sliceFrom_of_oneByte h (by simp)]
    simp [swap2]

theorem repOf_of_oneByte {A : Str} {pr : Str × Str} (h : OneByte pr.2)
    (hne : pr.2 ≠ []) :
    repOf A pr = some (A.map (fun c => pr.1 ++ c :: pr.2.tail)) := by
  rw [repOf]
  exact optList_map_some (fun c _ => by
    rw [sliceFrom_of_oneByte h (by have := List.length_pos.mpr hne; omega),
      List.drop_one]
    rfl)

theorem edits1_of_oneByte {A w : Str} (h : OneByte w) :
    edits1 A w = some (edits1C A w) := by
  rw [edits1, splits_of_oneByte h, Option.some_bind]
  rw [optList_map_some (fun pr hpr => by
    have hm := List.mem_filter.mp hpr
    exact delOf_of_oneByte (oneByte_of_mem_splitsC h hm.1).2
      (by simpa using hm.2)), Option.some_bind]
  rw [List.filter_congr (fun pr hpr => by
    rw [byteLen_of_oneByte (oneByte_of_mem_splitsC h hpr).2] :
      ∀ pr ∈ splitsC w, decide (1 < byteLen pr.2) = decide (1 < pr.2.length))]
  rw [optList_map_some (fun pr hpr => by
    have hm := List.mem_filter.mp hpr
    exact transOf_of_oneByte (oneByte_of_mem_splitsC h hm.1).2
      (by simpa using hm.2)), Option.some_bind]
  rw [optList_map_some (fun pr hpr => by
    have hm := List.mem_filter.mp hpr
    exact repOf_of_oneByte (oneByte_of_mem_splitsC h hm.1).2
      (by simpa using hm.2)), Option.map_some']
  rw [edits1C, deletesC, transposesC, replacesC, insertsC,
    List.flatMap_def, List.flatMap_def]
  rfl

theorem edits1_some_oneByte {A w : Str} {res : List Str}
    (h : edits1 A w = some res) : OneByte w := by
  rw [edits1, Option.bind_eq_some] at h
  obtain ⟨sp, hsp, _⟩ := h
  refine oneByte_of_all_splits (fun i hi => ?_)
  exact optList_isSome_mem hsp _
    (List.mem_map_of_mem _ (List.mem_range.mpr (by omega)))

theorem edits1_eq_some_iff {A w : Str} {res : List Str} :
    edits1 A w = some res ↔ OneByte w ∧ res = edits1C A w := by
  constructor
  · intro h
    have hob := edits1_some_oneByte h
    refine ⟨hob, ?_⟩
    rw [edits1_of_oneByte hob] at h
    exact (Option.some_inj.mp h).symm
  · rintro ⟨hob, rfl⟩
    exact edits1_of_oneByte hob

/-!  `known`, `maxByP` and `candidates`. -/

theorem mem_known {tbl : FreqMap} {l : List Str} {x : Str} :
    x ∈ known tbl l ↔ x ∈ l ∧ containsFM tbl x = true := by
  rw [known, List.mem_dedup, List.mem_filter]

theorem known_singleton_of_contains {tbl : FreqMap} {w : Str}
    (h : containsFM tbl w = true) : known tbl [w] = [w] := by
  simp [known, h]

theorem known_singleton_of_not_contains {tbl : FreqMap} {w : Str}
    (h : containsFM tbl w = false) : known tbl [w] = [] := by
  simp [known, h]

theorem probFM_isSome_of_contains {tbl : FreqMap} {x : Str}
    (h : containsFM tbl x = true) : (probFM tbl x).isSome := by
  rw [containsFM] at h
  obtain ⟨c, hc⟩ := Option.isSome_iff_exists.mp h
  rw [probFM, hc]
  rfl

theorem cmpP_isSome_of_contains {tbl : FreqMap} {a b : Str}
    (ha : containsFM tbl a = true) (hb : containsFM tbl b = true) :
    (cmpP tbl a b).isSome := by
  obtain ⟨x, hx⟩ := Option.isSome_iff_exists.mp (probFM_isSome_of_contains ha)
  obtain ⟨y, hy⟩ := Option.isSome_iff_exists.mp (probFM_isSome_of_contains hb)
  rw [cmpP, hx, hy]
  rfl

@[simp] theorem maxByP_singleton (tbl : FreqMap) (x : Str) :
    maxByP tbl [x] = some x := rfl

theorem foldl_maxByStep_none (tbl : FreqMap) (xs : List Str) :
    xs.foldl (maxByStep tbl) none = none := by
  induction xs with
  | nil => rfl
  | cons x xs ih => rw [List.foldl_cons, maxByStep, Option.none_bind, ih]

theorem foldl_maxByStep_mem {tbl : FreqMap} {xs : List Str} {a r : Str}
    (h : xs.foldl (maxByStep tbl) (some a) = some r) : r = a ∨ r ∈ xs := by
  induction xs generalizing a with
  | nil => exact Or.inl (Option.some_inj.mp h).symm
  | cons x xs ih =>
    rw [List.foldl_cons, maxByStep, Option.some_bind] at h
    cases hc : cmpP tbl a x with
    | none => rw [hc, Option.map_none', foldl_maxByStep_none] at h; exact absurd h (by simp)
    | some o =>
      rw [hc, Option.map_some'] at h
      rcases ih h with hr | hr
      · by_cases ho : o = Ordering.gt
        · rw [ho, if_pos rfl] at hr; exact Or.inl hr
        · rw [if_neg ho] at hr; exact Or.inr (by simp [hr])
      · exact Or.inr (by simp [hr])

theorem maxByP_mem {tbl : FreqMap} {l : List Str} {r : Str}
    (h : maxByP tbl l = some r) : r ∈ l := by
  cases l with
  | nil => exact absurd h (by simp [maxByP])
  | cons x xs =>
    rw [maxByP] at h
    rcases foldl_maxByStep_mem h with hr | hr
    · simp [hr]
    · simp [hr]

theorem foldl_maxByStep_isSome {tbl : FreqMap} {xs : List Str} {a : Str}
    (ha : containsFM tbl a = true)
    (hxs : ∀ x ∈ xs, containsFM tbl x = true) :
    ∃ r, xs.foldl (maxByStep tbl) (some a) = some r := by
  induction xs generalizing a with
  | nil => exact ⟨a, rfl⟩
  | cons x xs ih =>
    rw [List.foldl_cons, maxByStep, Option.some_bind]
    obtain ⟨o, ho⟩ := Option.isSome_iff_exists.mp
      (cmpP_isSome_of_contains ha (hxs x (by simp)))
    rw [ho, Option.map_some']
    by_cases hgt : o = Ordering.gt
    · exact ih (by simp [hgt, ha]) (fun y hy => hxs y (by simp [hy]))
    · exact (by
        rw [if_neg hgt]
        exact ih (hxs x (by simp)) (fun y hy => hxs y (by simp [hy])))

theorem maxByP_isSome_of_contains {tbl : FreqMap} {l : List Str}
    (hne : l ≠ []) (h : ∀ x ∈ l, containsFM tbl x = true) :
    ∃ r, maxByP tbl l = some r := by
  cases l with
  | nil => exact absurd rfl hne
  | cons x xs =>
    rw [maxByP]
    exact foldl_maxByStep_isSome (h x (by simp)) (fun y hy => h y (by simp [hy]))

/-- Tier 1: a known word short-circuits `candidates` to its own singleton. -/
theorem candidates_of_contains {A : Str} {tbl : FreqMap} {w : Str}
    (h : containsFM tbl w = true) : candidates A tbl w = some [w] := by
  rw [candidates]
  simp only [known_singleton_of_contains h]
  rw [if_pos (by simp)]

/-- Whatever `candidates` returns is a list of known words or the tier-4
singleton of the input. -/
theorem candidates_cases {A : Str} {tbl : FreqMap} {w : Str} {cs : List Str}
    (h : candidates A tbl w = some cs) :
    (∀ x ∈ cs, containsFM tbl x = true) ∨ cs = [w] := by
  rw [candidates] at h
  split at h
  · exact Or.inl (fun x hx => (mem_known.mp ((Option.some_inj.mp h) ▸ hx)).2)
  · rw [Option.bind_eq_some] at h
    obtain ⟨e1, _, h⟩ := h

    split at h
    · exact Or.inl (fun x hx => (mem_known.mp ((Option.some_inj.mp h) ▸ hx)).2)
    · rw [Option.bind_eq_some] at h
      obtain ⟨e2, _, h⟩ := h

      split at h
      · exact Or.inl (fun x hx => (mem_known.mp ((Option.some_inj.mp h) ▸ hx)).2)
      · exact Or.inr (Option.some_inj.mp h).symm

/-- `candidates` never produces the empty list. -/
theorem candidates_ne_nil {A : Str} {tbl : FreqMap} {w : Str} {cs : List Str}
    (h : candidates A tbl w = some cs) : cs ≠ [] := by
  rw [candidates] at h
  split at h
  · rename_i hk; exact (Option.some_inj.mp h) ▸ hk
  · rw [Option.bind_eq_some] at h
    obtain ⟨e1, _, h⟩ := h

    split at h
    · rename_i hk; exact (Option.some_inj.mp h) ▸ hk
    · rw [Option.bind_eq_some] at h
      obtain ⟨e2, _, h⟩ := h

      split at h
      · rename_i hk; exact (Option.some_inj.mp h) ▸ hk
      · rw [← Option.some_inj.mp h]; simp

/-!  The builder fold. -/

theorem lookupFM_insertIncr (m : FreqMap) (w x : Str) :
    lookupFM (insertIncr m w) x =
      if x = w then some ((lookupFM m w).getD 0 + 1) else lookupFM m x := by
  induction m with
  | nil =>
    rcases eq_or_ne w x with rfl | h
    · simp [insertIncr, lookupFM]
    · simp [insertIncr, lookupFM, h, Ne.symm h]
  | cons kv rest ih =>
    obtain ⟨k, v⟩ := kv
    by_cases hk : k = w <;> by_cases hx : x = w <;>
      simp_all [insertIncr, lookupFM, eq_comm]

theorem lookupFM_foldl_isSome (ws : List Str) (m : FreqMap) (x : Str) :
    (lookupFM (ws.foldl insertIncr m) x).isSome ↔
      (lookupFM m x).isSome ∨ x ∈ ws := by
  induction ws generalizing m with
  | nil => simp
  | cons a ws ih =>
    rw [List.foldl_cons, ih, lookupFM_insertIncr]
    by_cases hx : x = a <;> simp [hx]

theorem lookupFM_foldl_getD (ws : List Str) (m : FreqMap) (x : Str) :
    (lookupFM (ws.foldl insertIncr m) x).getD 0 =
      (lookupFM m x).getD 0 + ws.count x := by
  induction ws generalizing m with
  | nil => simp
  | cons a ws ih =>
    rw [List.foldl_cons, ih, lookupFM_insertIncr, List.count_cons]
    by_cases hx : x = a
    · subst hx; simp; omega
    · simp [hx, Ne.symm hx]

/-!  Character provenance and totality of the candidate tiers on
single-byte data. -/

theorem mem_swap2 {l : Str} {c : Char} : c ∈ swap2 l ↔ c ∈ l := by
  match l with
  | [] => rfl
  | [a] => rfl
  | a :: b :: t => simp [swap2]; tauto

theorem edits1C_chars {A w s : Str} (hs : s ∈ edits1C A w) :
    ∀ c ∈ s, c ∈ w ∨ c ∈ A := by
  intro c hc
  rw [edits1C, List.mem_dedup, List.mem_append, List.mem_append,
    List.mem_append] at hs
  have hsplit : ∀ pr : Str × Str, pr ∈ splitsC w →
      (∀ d ∈ pr.1, d ∈ w) ∧ (∀ d ∈ pr.2, d ∈ w) := by
    intro pr hpr
    obtain ⟨i, _, rfl⟩ := mem_splitsC hpr
    exact ⟨fun d hd => List.take_subset i w hd, fun d hd => List.drop_subset i w hd⟩
  rcases hs with ((hdel | htr) | hrep) | hins
  · obtain ⟨pr, hpr, rfl⟩ := List.mem_map.mp hdel
    have h2 := hsplit pr (List.mem_filter.mp hpr).1
    rcases List.mem_append.mp hc with h | h
    · exact Or.inl (h2.1 c h)
    · exact Or.inl (h2.2 c (List.tail_subset _ h))
  · obtain ⟨pr, hpr, rfl⟩ := List.mem_map.mp htr
    have h2 := hsplit pr (List.mem_filter.mp hpr).1
    rcases List.mem_append.mp hc with h | h
    · exact Or.inl (h2.1 c h)
    · exact Or.inl (h2.2 c (mem_swap2.mp h))
  · obtain ⟨pr, hpr, hmem⟩ := List.mem_flatMap.mp hrep
    obtain ⟨d', hd', rfl⟩ := List.mem_map.mp hmem
    have h2 := hsplit pr (List.mem_filter.mp hpr).1
    rcases List.mem_append.mp hc with h | h
    · exact Or.inl (h2.1 c h)
    · rcases List.mem_cons.mp h with rfl | h
      · exact Or.inr hd'
      · exact Or.inl (h2.2 c (List.tail_subset _ h))
  · obtain ⟨pr, hpr, hmem⟩ := List.mem_flatMap.mp hins
    obtain ⟨d', hd', rfl⟩ := List.mem_map.mp hmem
    have h2 := hsplit pr hpr
    rcases List.mem_append.mp hc with h | h
    · exact Or.inl (h2.1 c h)
    · rcases List.mem_cons.mp h with rfl | h
      · exact Or.inr hd'
      · exact Or.inl (h2.2 c h)

theorem oneByte_mem_edits1C {A w s : Str} (hA : OneByte A) (hw : OneByte w)
    (hs : s ∈ edits1C A w) : OneByte s :=
  fun c hc => (edits1C_chars hs c hc).elim (hw c) (hA c)

theorem edits2_of_oneByte {A w : Str} (hA : OneByte A) (hw : OneByte w) :
    edits2 A w = some ((edits1C A w).map (edits1C A)).flatten := by
  rw [edits2, edits1_of_oneByte hw, Option.some_bind,
    optList_map_some (fun s hs =>
      edits1_of_oneByte (oneByte_mem_edits1C hA hw hs)),
    Option.map_some']

/-- On single-byte data `candidates` is total and computes the four-tier
waterfall over the character-level edit sets. -/
theorem candidates_waterfall {A : Str} (tbl : FreqMap) {w : Str}
    (hA : OneByte A) (hw : OneByte w) :
    candidates A tbl w = some (
      if containsFM tbl w then [w]
      else if known tbl (edits1C A w) ≠ [] then known tbl (edits1C A w)
      else if known tbl (((edits1C A w).map (edits1C A)).flatten) ≠ []
        then known tbl (((edits1C A w).map (edits1C A)).flatten)
      else [w]) := by
  cases hc : containsFM tbl w with
  | true =>
    rw [candidates_of_contains hc]
    simp
  | false =>
    rw [if_neg (by simp), candidates,
      if_neg (by simp [known_singleton_of_not_contains hc]),
      edits1_of_oneByte hw, Option.some_bind]
    split
    · rfl
    · rw [edits2_of_oneByte hA hw, Option.some_bind]
      split
      · rfl
      · rfl

/-!  Sizes of the `edits1` families. -/

theorem filter_range_lt (m k : Nat) :
    (List.range k).filter (fun i => decide (i < m)) = List.range (min m k) := by
  induction k with
  | zero => simp
  | succ k ih =>
    rw [List.range_succ, List.filter_append, ih]
    by_cases h : k < m
    · have h1 : min m k = k := by omega
      have h2 : min m (k + 1) = k + 1 := by omega
      rw [h1, h2, List.range_succ]
      simp [h]
    · have h1 : min m k = m := by omega
      have h2 : min m (k + 1) = m := by omega
      rw [h1, h2]
      simp [h]

theorem filter_splitsC_ne_nil (w : Str) :
    (splitsC w).filter (fun pr => !pr.2.isEmpty) =
      (List.range w.length).map (fun i => (w.take i, w.drop i)) := by
  rw [splitsC, List.filter_map]
  have hcongr : ∀ i ∈ List.range (w.length + 1),
      ((fun pr : Str × Str => !pr.2.isEmpty) ∘
        (fun i => (w.take i, w.drop i))) i = decide (i < w.length) := by
    intro i _
    by_cases h : i < w.length
    · have : w.drop i ≠ [] := by
        intro hd
        have := List.drop_eq_nil_iff.mp hd
        omega
      simp [this, h]
    · have : w.drop i = [] := List.drop_eq_nil_iff.mpr (by omega)
      simp [this, h]
  rw [List.filter_congr hcongr, filter_range_lt,
    Nat.min_eq_left (by omega)]

theorem filter_splitsC_long (w : Str) :
    (splitsC w).filter (fun pr => decide (1 < pr.2.length)) =
      (List.range (w.length - 1)).map (fun i => (w.take i, w.drop i)) := by
  rw [splitsC, List.filter_map]
  have hcongr : ∀ i ∈ List.range (w.length + 1),
      ((fun pr : Str × Str => decide (1 < pr.2.length)) ∘
        (fun i => (w.take i, w.drop i))) i = decide (i < w.length - 1) := by
    intro i _
    have : (w.drop i).length = w.length - i := List.length_drop i w
    by_cases h : i < w.length - 1
    · simp only [Function.comp_apply]
      rw [this]
      simp only [decide_eq_decide]
      omega
    · simp only [Function.comp_apply]
      rw [this]
      simp only [decide_eq_decide]
      omega
  rw [List.filter_congr hcongr, filter_range_lt,
    Nat.min_eq_left (by omega)]

theorem length_swap2 (l : Str) : (swap2 l).length = l.length := by
  match l with
  | [] => rfl
  | [a] => rfl
  | a :: b :: t => simp [swap2]

theorem length_deletesC (w : Str) : (deletesC w).length = w.length := by
  rw [deletesC, filter_splitsC_ne_nil, List.length_map, List.length_map,
    List.length_range]

theorem length_transposesC (w : Str) :
    (transposesC w).length = w.length - 1 := by
  rw [transposesC, filter_splitsC_long, List.length_map, List.length_map,
    List.length_range]

theorem length_flatMap_const {α : Type} (l : List α) (k : Nat)
    (f : α → List Str) (hf : ∀ a ∈ l, (f a).length = k) :
    (l.flatMap f).length = l.length * k := by
  induction l with
  | nil => simp
  | cons a as ih =>
    rw [List.flatMap_cons, List.length_append, hf a (by simp),
      ih (fun b hb => hf b (by simp [hb])), List.length_cons]
    ring

theorem length_replacesC (A w : Str) :
    (replacesC A w).length = w.length * A.length := by
  rw [replacesC, length_flatMap_const _ A.length _ (fun pr _ => by simp),
    filter_splitsC_ne_nil, List.length_map, List.length_range]

theorem length_insertsC (A w : Str) :
    (insertsC A w).length = (w.length + 1) * A.length := by
  rw [insertsC, length_flatMap_const _ A.length _ (fun pr _ => by simp),
    splitsC, List.length_map, List.length_range]

theorem length_edits1C_le (A w : Str) :
    (edits1C A w).length ≤
      w.length + (2 * w.length + 1) * A.length + (w.length - 1) := by
  have hd := (List.dedup_sublist
    (deletesC w ++ transposesC w ++ replacesC A w ++ insertsC A w)).length_le
  rw [edits1C]
  refine le_trans hd ?_
  rw [List.length_append, List.length_append, List.length_append,
    length_deletesC, length_transposesC, length_replacesC, length_insertsC]
  have : w.length * A.length + (w.length + 1) * A.length =
      (2 * w.length + 1) * A.length := by ring
  omega

theorem length_mem_edits1C {A w s : Str} (hs : s ∈ edits1C A w) :
    s.length = w.length - 1 ∨ s.length = w.length ∨ s.length = w.length + 1 := by
  rw [edits1C, List.mem_dedup, List.mem_append, List.mem_append,
    List.mem_append] at hs
  rcases hs with ((hdel | htr) | hrep) | hins
  · obtain ⟨pr, hpr, rfl⟩ := List.mem_map.mp hdel
    obtain ⟨hmem, hne⟩ := List.mem_filter.mp hpr
    obtain ⟨i, hi, rfl⟩ := mem_splitsC hmem
    have hlt : i < w.length := by
      have hd : w.drop i ≠ [] := by simpa using hne
      rcases Nat.lt_or_ge i w.length with h | h
      · exact h
      · exact absurd (List.drop_eq_nil_iff.mpr h) hd
    refine Or.inl ?_
    simp only [List.length_append, List.length_take, List.length_tail,
      List.length_drop]
    omega
  · obtain ⟨pr, hpr, rfl⟩ := List.mem_map.mp htr
    obtain ⟨hmem, _⟩ := List.mem_filter.mp hpr
    obtain ⟨i, hi, rfl⟩ := mem_splitsC hmem
    refine Or.inr (Or.inl ?_)
    simp only [List.length_append, List.length_take, length_swap2,
      List.length_drop]
    omega
  · obtain ⟨pr, hpr, hmem'⟩ := List.mem_flatMap.mp hrep
    obtain ⟨c, _, rfl⟩ := List.mem_map.mp hmem'
    obtain ⟨hmem, hne⟩ := List.mem_filter.mp hpr
    obtain ⟨i, hi, rfl⟩ := mem_splitsC hmem
    have hlt : i < w.length := by
      have hd : w.drop i ≠ [] := by simpa using hne
      rcases Nat.lt_or_ge i w.length with h | h
      · exact h
      · exact absurd (List.drop_eq_nil_iff.mpr h) hd
    refine Or.inr (Or.inl ?_)
    simp only [List.length_append, List.length_take, List.length_cons,
      List.length_tail, List.length_drop]
    omega
  · obtain ⟨pr, hpr, hmem'⟩ := List.mem_flatMap.mp hins
    obtain ⟨c, _, rfl⟩ := List.mem_map.mp hmem'
    obtain ⟨i, hi, rfl⟩ := mem_splitsC hpr
    refine Or.inr (Or.inr ?_)
    simp only [List.length_append, List.length_take, List.length_cons,
      List.length_drop]
    omega

/-- `edits1` of the empty string: the alphabet singletons, and nothing else. -/
theorem edits1C_nil (A : Str) : edits1C A [] = (A.map (fun c => [c])).dedup := by
  have hsp : splitsC [] = [(([] : Str), ([] : Str))] := rfl
  rw [edits1C, deletesC, transposesC, replacesC, insertsC, hsp]
  simp [List.flatMap_cons]

/-!  Remaining supporting lemmas. -/

theorem mem_of_lookupFM {tbl : FreqMap} {w : Str} {v : Nat}
    (h : lookupFM tbl w = some v) : (w, v) ∈ tbl := by
  induction tbl with
  | nil => exact absurd h (by simp [lookupFM])
  | cons kv rest ih =>
    obtain ⟨k, v'⟩ := kv
    rw [lookupFM] at h
    split at h
    · rename_i hk
      subst hk
      simp [Option.some_inj.mp h]
    · simp [ih h]

theorem oneByte_nil : OneByte [] := fun c hc => absurd hc (List.not_mem_nil c)

/-!  The claims. -/

/-- C1 (code_bug): the specification says `correction` always terminates and
never fails, returning the input unchanged when nothing better is known, and
the doc comment of `correction` itself says "Never panics".  But `edits1`
slices the word at every byte index `0..=word.len()`, and Rust string slicing
panics on an index that is not a character boundary, so `correction` panics
on any unknown word containing a multi-byte UTF-8 character.  Here the code
is evaluated at the failing input "é" against the table {"a": 1}: it panics
(`none`) instead of returning "é". -/
theorem correction_panics_on_multibyte_input :
    correction defaultAlphabet [(['a'], 1)] ['é'] = none := by decide

/-- C2: every word present as a key in the frequency table is a fixed point
of `correction` (tier 1 returns its singleton, and `max_by` of a singleton is
its element, without consulting `p`). -/
theorem correction_fixes_known_words (A : Str) (tbl : FreqMap) (w : Str)
    (h : containsFM tbl w = true) : correction A tbl w = some w := by
  rw [correction, candidates_of_contains h, Option.some_bind]
  exact maxByP_singleton tbl w

theorem correction_fixes_known_words_witness :
    containsFM [("the".toList, 100)] "the".toList = true ∧
      correction defaultAlphabet [("the".toList, 100)] "the".toList =
        some "the".toList :=
  ⟨by decide, correction_fixes_known_words defaultAlphabet
    [("the".toList, 100)] "the".toList (by decide)⟩

/-- C3 counterexample: the claim quantifies over every word, but on the
unknown one-character word "ü" (two UTF-8 bytes) `candidates` panics at the
tier-2 edit generation instead of producing any (non-empty) tier result. -/
theorem candidates_multibyte_counterexample :
    candidates defaultAlphabet [(['b'], 2)] ['ü'] = none := by decide

/-- C3 (amended): for words and alphabets made of single-byte characters,
`candidates` follows the strict four-tier waterfall — the singleton of a
known word, else the known subset of `edits1`, else the known subset of
`edits2`, else the singleton of the input — and its result is non-empty. -/
theorem candidates_four_tier_waterfall (A : Str) (tbl : FreqMap) (w : Str)
    (hA : OneByte A) (hw : OneByte w) :
    ∃ e1 e2, edits1 A w = some e1 ∧ edits2 A w = some e2 ∧
      candidates A tbl w = some (
        if containsFM tbl w then [w]
        else if known tbl e1 ≠ [] then known tbl e1
        else if known tbl e2 ≠ [] then known tbl e2
        else [w]) ∧
      (∀ cs, candidates A tbl w = some cs → cs ≠ []) :=
  ⟨edits1C A w, ((edits1C A w).map (edits1C A)).flatten,
    edits1_of_oneByte hw, edits2_of_oneByte hA hw,
    candidates_waterfall tbl hA hw, fun _ h => candidates_ne_nil h⟩

theorem candidates_four_tier_waterfall_witness :
    ∃ e1 e2, edits1 ['a'] ['q'] = some e1 ∧ edits2 ['a'] ['q'] = some e2 ∧
      candidates ['a'] [(['a'], 1)] ['q'] = some (
        if containsFM [(['a'], 1)] ['q'] then [['q']]
        else if known [(['a'], 1)] e1 ≠ [] then known [(['a'], 1)] e1
        else if known [(['a'], 1)] e2 ≠ [] then known [(['a'], 1)] e2
        else [['q']]) ∧
      (∀ cs, candidates ['a'] [(['a'], 1)] ['q'] = some cs → cs ≠ []) :=
  candidates_four_tier_waterfall ['a'] [(['a'], 1)] ['q']
    (by decide) (by decide)

/-- C4: for every text (and every word-character class and lowercasing
function), the builder's table has exactly the lowercased maximal word runs
of the text as keys, each mapped to its number of occurrences; words that do
not occur are absent rather than stored with count zero. -/
theorem buildFreqmap_counts_spec (P : Char → Bool) (low : Str → Str)
    (text : Str) (w : Str) :
    ((lookupFM (buildFreqmap P low text) w).isSome ↔
      w ∈ (wordRuns P text).map low) ∧
    (lookupFM (buildFreqmap P low text) w).getD 0 =
      ((wordRuns P text).map low).count w := by
  constructor
  · rw [buildFreqmap, lookupFM_foldl_isSome]
    simp [lookupFM]
  · rw [buildFreqmap, lookupFM_foldl_getD]
    simp [lookupFM]

/-- C5: `p(word)` is the count of `word` divided by the sum of all counts in
the table when `word` is present, and fails (panics on the unguarded index)
when it is absent. -/
theorem probFM_spec (tbl : FreqMap) (w : Str) :
    (∀ c, lookupFM tbl w = some c →
      probFM tbl w = some ((c : ℚ) / (((tbl.map Prod.snd).sum : Nat) : ℚ))) ∧
    (lookupFM tbl w = none → probFM tbl w = none) := by
  constructor
  · intro c hc
    rw [probFM, hc]
    rfl
  · intro hc
    rw [probFM, hc]
    rfl

theorem probFM_spec_witness :
    probFM [("a".toList, 1), ("b".toList, 3)] "b".toList =
      some (((3 : Nat) : ℚ) /
        (((([("a".toList, 1), ("b".toList, 3)] : FreqMap).map Prod.snd).sum :
          Nat) : ℚ)) :=
  (probFM_spec [("a".toList, 1), ("b".toList, 3)] "b".toList).1 3 (by decide)

/-- C6: whenever `edits1` returns, its set has at most
`len(w) + (2*len(w)+1)*|alphabet| + (len(w)-1)` members, and every generated
string has length `len(w)-1`, `len(w)` or `len(w)+1`. -/
theorem edits1_size_bound_and_lengths (A w : Str) (res : List Str)
    (h : edits1 A w = some res) :
    res.length ≤ w.length + (2 * w.length + 1) * A.length + (w.length - 1) ∧
    ∀ s ∈ res, s.length = w.length - 1 ∨ s.length = w.length ∨
      s.length = w.length + 1 := by
  obtain ⟨hob, rfl⟩ := edits1_eq_some_iff.mp h
  exact ⟨length_edits1C_le A w, fun s hs => length_mem_edits1C hs⟩

theorem edits1_size_bound_witness :
    ([[], ['a'], "ab".toList, "ba".toList] : List Str).length ≤
      1 + (2 * 1 + 1) * 1 + (1 - 1) :=
  (edits1_size_bound_and_lengths ['a'] ['b']
    [[], ['a'], "ab".toList, "ba".toList] (by decide)).1

/-- C7: `edits1` of the empty string is exactly the set of single-character
insertions, one per alphabet character — no deletions, transpositions or
replacements — and `candidates` (hence `correction`) on the empty string
follows the normal tier fallback over that set. -/
theorem edits1_empty_string_spec (A : Str) (tbl : FreqMap) :
    edits1 A [] = some ((A.map (fun c => [c])).dedup) ∧
    (∀ s, s ∈ (A.map (fun c => [c])).dedup ↔ ∃ c, c ∈ A ∧ s = [c]) ∧
    (OneByte A →
      ∃ e2, edits2 A [] = some e2 ∧
        candidates A tbl [] = some (
          if containsFM tbl [] then [([] : Str)]
          else if known tbl ((A.map (fun c => [c])).dedup) ≠ []
            then known tbl ((A.map (fun c => [c])).dedup)
          else if known tbl e2 ≠ [] then known tbl e2
          else [([] : Str)])) := by
  refine ⟨?_, ?_, ?_⟩
  · rw [edits1_of_oneByte oneByte_nil, edits1C_nil]
  · intro s
    simp [List.mem_dedup, List.mem_map, eq_comm]
  · intro hA
    have h2 := edits2_of_oneByte hA oneByte_nil
    have h := candidates_waterfall tbl hA oneByte_nil
    rw [edits1C_nil] at h2 h
    exact ⟨(((A.map (fun c => [c])).dedup).map (edits1C A)).flatten, h2, h⟩

theorem edits1_empty_string_witness :
    ∃ e2, edits2 ['a'] [] = some e2 ∧
      candidates ['a'] [(['a'], 1)] [] = some (
        if containsFM [(['a'], 1)] [] then [([] : Str)]
        else if known [(['a'], 1)] ((['a'].map (fun c => [c])).dedup) ≠ []
          then known [(['a'], 1)] ((['a'].map (fun c => [c])).dedup)
        else if known [(['a'], 1)] e2 ≠ [] then known [(['a'], 1)] e2
        else [([] : Str)]) :=
  (edits1_empty_string_spec ['a'] [(['a'], 1)]).2.2 (by decide)

/-- C8: inside `correction`, `p` is only ever evaluated on table keys:
every candidate set is either a set of known words or the tier-4 singleton
of the input, taking `max_by` of a one-element iterator invokes no
comparison, and consequently the maximisation step never fails on the
unguarded lookup inside `p`. -/
theorem correction_probability_lookups_safe :
    (∀ (A : Str) (tbl : FreqMap) (w : Str) (cs : List Str),
      candidates A tbl w = some cs →
        ((∀ x ∈ cs, containsFM tbl x = true) ∨ cs = [w]) ∧
        ∃ r, maxByP tbl cs = some r) ∧
    (∀ (tbl : FreqMap) (x : Str), maxByP tbl [x] = some x) := by
  constructor
  · intro A tbl w cs h
    refine ⟨candidates_cases h, ?_⟩
    rcases candidates_cases h with hk | rfl
    · exact maxByP_isSome_of_contains (candidates_ne_nil h) hk
    · exact ⟨w, maxByP_singleton tbl w⟩
  · exact maxByP_singleton

theorem correction_probability_lookups_safe_witness :
    ((∀ x ∈ ([['a', 'b']] : List Str),
        containsFM [(['a', 'b'], 2)] x = true) ∨
      ([['a', 'b']] : List Str) = [['a', 'x']]) ∧
    ∃ r, maxByP [(['a', 'b'], 2)] [['a', 'b']] = some r :=
  correction_probability_lookups_safe.1 ['a', 'b'] [(['a', 'b'], 2)]
    ['a', 'x'] [['a', 'b']] (by decide)

/-- C9: whatever `correction` returns is either the input word itself or a
key of the frequency table. -/
theorem correction_output_known_or_input (A : Str) (tbl : FreqMap)
    (w r : Str) (h : correction A tbl w = some r) :
    r = w ∨ containsFM tbl r = true := by
  rw [correction, Option.bind_eq_some] at h
  obtain ⟨cs, hcs, hmax⟩ := h
  have hr := maxByP_mem hmax
  rcases candidates_cases hcs with hk | rfl
  · exact Or.inr (hk r hr)
  · exact Or.inl (List.mem_singleton.mp hr)

theorem correction_output_known_or_input_witness :
    "hi".toList = "hi".toList ∨
      containsFM [("hi".toList, 1)] "hi".toList = true :=
  correction_output_known_or_input defaultAlphabet [("hi".toList, 1)]
    "hi".toList "hi".toList (by decide)

/-- C10: `correction` never case-normalises its input: the tier-1 membership
test uses the word verbatim, so when every key of the table is free of
uppercase letters (as the builder guarantees for any lowercasing function
whose outputs are uppercase-free), a variant containing an uppercase letter
is never known at tier 1. -/
theorem correction_case_sensitive :
    (∀ (tbl : FreqMap) (v : Str),
      (∀ kv ∈ tbl, ∀ c ∈ kv.1, c.isUpper = false) →
      (∃ c ∈ v, c.isUpper = true) →
      containsFM tbl v = false ∧ known tbl [v] = []) ∧
    (∀ (P : Char → Bool) (low : Str → Str) (text w : Str),
      (∀ r c, c ∈ low r → c.isUpper = false) →
      containsFM (buildFreqmap P low text) w = true →
      ∀ c ∈ w, c.isUpper = false) := by
  constructor
  · intro tbl v hkeys hvar
    cases hc : containsFM tbl v with
    | true =>
      obtain ⟨c, hcv, hcup⟩ := hvar
      obtain ⟨x, hx⟩ := Option.isSome_iff_exists.mp hc
      have := hkeys (v, x) (mem_of_lookupFM hx) c hcv
      rw [this] at hcup
      exact absurd hcup (by simp)
    | false => exact ⟨rfl, known_singleton_of_not_contains hc⟩
  · intro P low text w hlow hc
    have hmem : w ∈ (wordRuns P text).map low := by
      have := (lookupFM_foldl_isSome ((wordRuns P text).map low) [] w).mp
        (by rw [containsFM, buildFreqmap] at hc; exact hc)
      rcases this with habs | hmem
      · rw [lookupFM] at habs
        exact absurd habs (by simp)
      · exact hmem
    obtain ⟨r, _, rfl⟩ := List.mem_map.mp hmem
    exact fun c hcw => hlow r c hcw

theorem correction_case_sensitive_witness :
    containsFM [("the".toList, 100)] "The".toList = false ∧
      known [("the".toList, 100)] ["The".toList] = [] :=
  correction_case_sensitive.1 [("the".toList, 100)] "The".toList
    (by decide) ⟨'T', by decide, by decide⟩

end Spell
